import Mathlib

/-!
Verification of the client-side charting core of a stock/crypto/forex
forecasting dashboard.

The definitions below are a shallow embedding of the JavaScript source:

* `src/unnamed/part_008` (`TechnicalIndicators`): `calculateRSI`,
  `calculateEMA`, `calculateMACD`, `calculateBollingerBands`,
  `calculateStochastic`.
* `src/unnamed/part_005` (`PerformanceMetrics`): `calculateOverallScore`
  and the qualitative label.
* `src/frontend/src/components/CandlestickChart.js` (`CandlestickChart`):
  the series normalizer (stable sort + `Map`-based dedup), the
  confidence-band merge, and the portfolio-value alignment.

Modelling conventions:

* JavaScript numbers are modelled as `ℚ` (all the arithmetic that the
  claims exercise is exact); `Math.sqrt` alone forces `ℝ` and is kept
  out of the executable core (see `bollingerWindows` vs
  `calculateBollingerBands`).
* A JavaScript value that may be `undefined`/`null` is an `Option ℚ`.
* A division whose result can be `NaN`/`Infinity` (denominator 0) is
  `jsDiv : ℚ → ℚ → Option ℚ`, `none` standing for the non-finite result.
* A JavaScript `Map` is an association list in key-insertion order:
  `mapInsert` updates an existing key in place and appends a fresh key,
  exactly like `Map.prototype.set`; iterating `.values()` is `.map (·.2)`.
* `Array.prototype.sort` with a numeric comparator is a stable ascending
  sort by a key; `sSortK` (insertion sort, inserting after equal keys)
  is such a sort.
-/

/-! ## JavaScript primitives -/

/-- JavaScript `Map.prototype.set`: replace the value at an existing key
in place, otherwise append the new entry; iteration order is key
insertion order. -/
def mapInsert {K : Type} [DecidableEq K] {β : Type} (m : List (K × β)) (k : K) (v : β) :
    List (K × β) :=
  if m.any (fun e => decide (e.1 = k)) then
    m.map (fun e => if e.1 = k then (k, v) else e)
  else
    m ++ [(k, v)]

/-- Run a sequence of `Map.prototype.set` calls. -/
def msetAll {K : Type} [DecidableEq K] {β : Type} (m : List (K × β)) (kvs : List (K × β)) :
    List (K × β) :=
  kvs.foldl (fun acc e => mapInsert acc e.1 e.2) m

/-- Stable insertion of `x` into a list: `x` goes before the first
element whose key is strictly greater, hence after every equal key. -/
def sInsertK {α : Type} {K : Type} [LinearOrder K] (k : α → K) (x : α) : List α → List α
  | [] => [x]
  | y :: ys => if k x < k y then x :: y :: ys else y :: sInsertK k x ys

/-- Stable ascending sort by the key `k`; models
`Array.prototype.sort((a, b) => k(a) - k(b))`. -/
def sSortK {α : Type} {K : Type} [LinearOrder K] (k : α → K) (l : List α) : List α :=
  l.foldl (fun acc x => sInsertK k x acc) []

/-- JavaScript `x || d` for a possibly-missing number `x`: `0`, `null`
and `undefined` are all falsy. -/
def jsOr (v : Option ℚ) (d : ℚ) : ℚ :=
  match v with
  | some x => if x = 0 then d else x
  | none => d

/-- JavaScript division restricted to finite results: `none` when the
denominator is `0` (the JS result would be `NaN` or `±Infinity`). -/
def jsDiv (a b : ℚ) : Option ℚ :=
  if b = 0 then none else some (a / b)

/-- `Math.max(...l)` for a list (`-Infinity` on `[]`, which never occurs
at the call sites; `0` is used as the dummy value for `[]`). -/
def jsMaxL (l : List ℚ) : ℚ :=
  match l with
  | [] => 0
  | x :: xs => xs.foldl max x

/-- `Math.min(...l)` for a list (same convention as `jsMaxL`). -/
def jsMinL (l : List ℚ) : ℚ :=
  match l with
  | [] => 0
  | x :: xs => xs.foldl min x

/-! ## Data model -/

/-- One OHLCV record as delivered to `CandlestickChart`:
`new Date(d.date).getTime()` is modelled directly by `dateMs`
(milliseconds since epoch). -/
structure PricePoint where
  dateMs : ℤ
  open_price : ℚ
  high_price : ℚ
  low_price : ℚ
  close_price : ℚ
  volume : Option ℚ
  deriving DecidableEq, Repr

/-- The dedup key used by the chart: `new Date(item.date).getTime() / 1000`
(epoch seconds, possibly fractional). -/
def tkey (p : PricePoint) : ℚ := (p.dateMs : ℚ) / 1000

/-- One portfolio snapshot (`{metric_date, total_value}`); `total_value`
is `none` when absent or `null`. -/
structure PortfolioMetricPoint where
  metricDateMs : ℤ
  total_value : Option ℚ
  deriving DecidableEq, Repr

/-- The evaluation-metric record handed to `PerformanceMetrics`; each
field is `none` when the backend omitted it or sent `null`. -/
structure Metrics where
  rmse : Option ℚ
  mae : Option ℚ
  mape : Option ℚ
  directional_accuracy : Option ℚ
  deriving DecidableEq, Repr

/-- JavaScript truthiness of a possibly-missing metric value:
`undefined`, `null` and `0` are falsy. -/
def truthy (o : Option ℚ) : Bool :=
  match o with
  | none => false
  | some x => decide (x ≠ 0)

/-! ## Overall performance scorer (src/unnamed/part_005, calculateOverallScore) -/

/-- RMSE bucket: `<2 → 25`, `<5 → 15`, else `5` (lower is better). -/
def rmseBucket (x : ℚ) : ℕ := if x < 2 then 25 else if x < 5 then 15 else 5

/-- MAE bucket: `<1.5 → 25`, `<3 → 15`, else `5` (lower is better). -/
def maeBucket (x : ℚ) : ℕ := if x < 3/2 then 25 else if x < 3 then 15 else 5

/-- MAPE bucket: `<2 → 25`, `<5 → 15`, else `5` (lower is better). -/
def mapeBucket (x : ℚ) : ℕ := if x < 2 then 25 else if x < 5 then 15 else 5

/-- Directional-accuracy bucket: `>65 → 25`, `>55 → 15`, else `5`
(higher is better). -/
def daBucket (x : ℚ) : ℕ := if x > 65 then 25 else if x > 55 then 15 else 5

/-- `calculateOverallScore`: `null` when any of the four metrics is
falsy (`!metrics.rmse || !metrics.mae || !metrics.mape ||
!metrics.directional_accuracy`), otherwise the sum of the four bucket
contributions (`Math.round` of an integer sum is the identity). -/
def calculateOverallScore (m : Metrics) : Option ℕ :=
  if truthy m.rmse && truthy m.mae && truthy m.mape && truthy m.directional_accuracy then
    some (rmseBucket (m.rmse.getD 0) + maeBucket (m.mae.getD 0) +
      mapeBucket (m.mape.getD 0) + daBucket (m.directional_accuracy.getD 0))
  else
    none

/-- The qualitative label shown next to the overall score:
`≥80 → Excellent`, `≥60 → Good`, else `Needs Improvement`. -/
def scoreLabel (s : ℕ) : String :=
  if s ≥ 80 then "Excellent" else if s ≥ 60 then "Good" else "Needs Improvement"

/-! ## Indicator engine (src/unnamed/part_008) -/

/-- The per-step changes `prices[i] - prices[i-1]` for `i ∈ [1, len)`. -/
def changesOf (prices : List ℚ) : List ℚ :=
  List.zipWith (fun a b => b - a) prices prices.tail

/-- The `gains` array of `calculateRSI`: `change > 0 ? change : 0`. -/
def gainsOf (prices : List ℚ) : List ℚ :=
  (changesOf prices).map (fun c => if c > 0 then c else 0)

/-- The `losses` array of `calculateRSI`: `change < 0 ? |change| : 0`. -/
def lossesOf (prices : List ℚ) : List ℚ :=
  (changesOf prices).map (fun c => if c < 0 then |c| else 0)

/-- `calculateRSI(prices, period)`: for each `i` from `period - 1` to
`gains.length - 1` (re-indexed as `i = period - 1 + j`), average the
window `gains[i-period+1 .. i] = (gains.drop j).take period` (and the
same window of losses) and emit `100` when `avgLoss = 0`, otherwise
`100 - 100 / (1 + avgGain / avgLoss)`. -/
def calculateRSI (prices : List ℚ) (period : ℕ) : List ℚ :=
  let gains := gainsOf prices
  let losses := lossesOf prices
  (List.range (gains.length + 1 - period)).map (fun j =>
    let avgGain := ((gains.drop j).take period).sum / (period : ℚ)
    let avgLoss := ((losses.drop j).take period).sum / (period : ℚ)
    if avgLoss = 0 then 100 else 100 - 100 / (1 + avgGain / avgLoss))

/-- `calculateEMA(prices, period)`, generalized to entries that may be
`NaN`/`undefined` (`none`), which arise when MACD feeds its `macdLine`
back through the EMA: `ema[0] = prices[0]` (`[undefined]`, i.e.
`[none]`, on empty input) and
`ema[i] = prices[i] * k + ema[i-1] * (1 - k)` with `k = 2 / (period + 1)`;
any non-finite operand makes the result non-finite. -/
def calculateEMA (prices : List (Option ℚ)) (period : ℕ) : List (Option ℚ) :=
  let k : ℚ := 2 / ((period : ℚ) + 1)
  match prices with
  | [] => [none]
  | p :: rest =>
    List.scanl (fun e x =>
      match e, x with
      | some ev, some xv => some (xv * k + ev * (1 - k))
      | _, _ => none) p rest

/-- The three outputs of `calculateMACD`. -/
structure MACDResult where
  macdLine : List (Option ℚ)
  signalLine : List (Option ℚ)
  histogram : List (Option ℚ)
  deriving DecidableEq, Repr

/-- Elementwise `a - b` on possibly non-finite values. -/
def optSub (a b : Option ℚ) : Option ℚ :=
  match a, b with
  | some x, some y => some (x - y)
  | _, _ => none

/-- `calculateMACD(prices, fast, slow, signal)`:
`macdLine[i] = emaFast[i] - emaSlow[i]`, `signalLine = EMA(macdLine,
signal)`, `histogram[i] = macdLine[i] - signalLine[i]` (the `.map` with
index over same-length arrays is `zipWith`). -/
def calculateMACD (prices : List ℚ) (fastPeriod slowPeriod signalPeriod : ℕ) : MACDResult :=
  let emaFast := calculateEMA (prices.map some) fastPeriod
  let emaSlow := calculateEMA (prices.map some) slowPeriod
  let macdLine := List.zipWith optSub emaFast emaSlow
  let signalLine := calculateEMA macdLine signalPeriod
  let histogram := List.zipWith optSub macdLine signalLine
  ⟨macdLine, signalLine, histogram⟩

/-- The `(mean, variance)` pair computed for each Bollinger window
`prices[i-period+1 .. i] = (prices.drop j).take period` (`i = period - 1 + j`):
`mean = slice.sum / period` and
`variance = (Σ (b - mean)²) / period` (population variance). -/
def bollingerWindows (prices : List ℚ) (period : ℕ) : List (ℚ × ℚ) :=
  (List.range (prices.length + 1 - period)).map (fun j =>
    let slice := (prices.drop j).take period
    let mean := slice.sum / (period : ℚ)
    let variance := (slice.map (fun b => (b - mean) ^ 2)).sum / (period : ℚ)
    (mean, variance))

/-- The three outputs of `calculateBollingerBands` (real-valued because
of `Math.sqrt`). -/
structure BollingerResult where
  sma : List ℝ
  upperBand : List ℝ
  lowerBand : List ℝ

/-- `calculateBollingerBands(prices, period, stdDev)`: per window,
`sma = mean`, `upper = mean + sqrt(variance) * stdDev`,
`lower = mean - sqrt(variance) * stdDev`. -/
noncomputable def calculateBollingerBands (prices : List ℚ) (period : ℕ) (stdDev : ℚ) :
    BollingerResult :=
  let ws := bollingerWindows prices period
  ⟨ws.map (fun w => (w.1 : ℝ)),
   ws.map (fun w => (w.1 : ℝ) + Real.sqrt (w.2 : ℝ) * (stdDev : ℝ)),
   ws.map (fun w => (w.1 : ℝ) - Real.sqrt (w.2 : ℝ) * (stdDev : ℝ))⟩

/-- `calculateStochastic(highs, lows, closes, period)`: for each window
ending at `i = period - 1 + j`,
`%K = (closes[i] - lowestLow) / (highestHigh - lowestLow) * 100` with no
guard on the denominator; a flat window (denominator `0`) gives a
non-finite sample, reported as `none`. -/
def calculateStochastic (highs lows closes : List ℚ) (period : ℕ) : List (Option ℚ) :=
  (List.range (closes.length + 1 - period)).map (fun j =>
    let highSlice := (highs.drop j).take period
    let lowSlice := (lows.drop j).take period
    let close := closes.getD (period - 1 + j) 0
    let highestHigh := jsMaxL highSlice
    let lowestLow := jsMinL lowSlice
    (jsDiv (close - lowestLow) (highestHigh - lowestLow)).map (fun q => q * 100))

/-! ## Series normalizer (CandlestickChart.js, lines 195-204) -/

/-- The sorted-then-deduplicated `uniqueData` of `CandlestickChart`:
stable ascending sort by `new Date(a.date) - new Date(b.date)`, then
insertion into a `Map` keyed by `getTime() / 1000` (last write wins),
then `Array.from(dataMap.values())`. -/
def uniqueData (raw : List PricePoint) : List PricePoint :=
  let sortedData := sSortK (fun p => p.dateMs) raw
  ((sortedData.foldl (fun m item => mapInsert m (tkey item) item) []).map (fun e => e.2))

/-- `lastTime`: the timestamp key of `uniqueData[uniqueData.length - 1]`
(`0` as dummy for the empty series, which the caller guards against). -/
def lastTimeOf (raw : List PricePoint) : ℚ :=
  match (uniqueData raw).getLast? with
  | some p => tkey p
  | none => 0

/-! ## Confidence-band merge (CandlestickChart.js, lines 265-294) -/

/-- The merged confidence-band sequence: one shared `confidenceMap`
receives the upper bounds at `lastTime + (index + 1) * 3600` in forward
order, then the lower bounds at the same timestamps in reverse order
(`reverseIndex = N - 1 - index`); finally `Array.from(values)` is
sorted ascending by time. Entries are `(time, value)` pairs. -/
def confidenceData (predictions upper lower : List ℚ) (lastTime : ℚ) : List (ℚ × ℚ) :=
  let m1 := (List.range predictions.length).foldl
    (fun m (index : ℕ) =>
      let timestamp := lastTime + ((index : ℚ) + 1) * 3600
      mapInsert m timestamp (timestamp, upper.getD index 0)) []
  let m2 := (List.range predictions.length).foldl
    (fun m (index : ℕ) =>
      let reverseIndex := predictions.length - 1 - index
      let reverseTimestamp := lastTime + ((reverseIndex : ℚ) + 1) * 3600
      mapInsert m reverseTimestamp (reverseTimestamp, lower.getD reverseIndex 0)) m1
  sSortK (fun e => e.1) (m2.map (fun e => e.2))

/-! ## Portfolio alignment (CandlestickChart.js, lines 353-370) -/

/-- The nearest-neighbour scan: start from `uniqueData[0]` and keep the
point with the strictly smaller absolute time difference (ties keep the
earlier point). `none` on an empty series (the caller returns early in
that case). -/
def closestPricePoint (uniq : List PricePoint) (metricDateMs : ℤ) : Option PricePoint :=
  match uniq with
  | [] => none
  | p0 :: _ =>
    some (uniq.foldl (fun best p =>
      if |p.dateMs - metricDateMs| < |best.dateMs - metricDateMs| then p else best) p0)

/-- The `portfolioData` map: each snapshot is aligned to the key of its
closest price point and carries
`metric.total_value || (initialCapital || 10000)`. -/
def portfolioData (history : List PortfolioMetricPoint) (uniq : List PricePoint)
    (initialCapital : Option ℚ) : List (ℚ × ℚ) :=
  history.map (fun metric =>
    ((match closestPricePoint uniq metric.metricDateMs with
      | some p => tkey p
      | none => 0),
     jsOr metric.total_value (jsOr initialCapital 10000)))

/-! ## Lemmas about the stable sort -/

theorem mem_sInsertK {α K : Type} [LinearOrder K] (k : α → K) (x a : α) (l : List α) :
    a ∈ sInsertK k x l ↔ a = x ∨ a ∈ l := by
  induction l with
  | nil => simp [sInsertK]
  | cons y ys ih =>
    by_cases h : k x < k y
    · simp [sInsertK, h]
    · simp only [sInsertK, if_neg h, List.mem_cons, ih]
      tauto

theorem pairwise_sInsertK {α K : Type} [LinearOrder K] (k : α → K) (x : α) (l : List α)
    (hl : l.Pairwise (fun a b => k a ≤ k b)) :
    (sInsertK k x l).Pairwise (fun a b => k a ≤ k b) := by
  induction l with
  | nil => simp [sInsertK]
  | cons y ys ih =>
    rcases List.pairwise_cons.mp hl with ⟨hy, hys⟩
    by_cases h : k x < k y
    · rw [sInsertK, if_pos h]
      refine List.pairwise_cons.mpr ⟨?_, hl⟩
      intro a ha
      rcases List.mem_cons.mp ha with rfl | ha
      · exact le_of_lt h
      · exact le_trans (le_of_lt h) (hy a ha)
    · rw [sInsertK, if_neg h]
      refine List.pairwise_cons.mpr ⟨?_, ih hys⟩
      intro a ha
      rcases (mem_sInsertK k x a ys).mp ha with rfl | ha
      · exact not_lt.mp h
      · exact hy a ha

theorem pairwise_foldl_sInsertK {α K : Type} [LinearOrder K] (k : α → K) (l : List α) :
    ∀ acc : List α, acc.Pairwise (fun a b => k a ≤ k b) →
      (l.foldl (fun acc x => sInsertK k x acc) acc).Pairwise (fun a b => k a ≤ k b) := by
  induction l with
  | nil => intro acc h; simpa using h
  | cons x xs ih =>
    intro acc h
    exact ih (sInsertK k x acc) (pairwise_sInsertK k x acc h)

theorem pairwise_sSortK {α K : Type} [LinearOrder K] (k : α → K) (l : List α) :
    (sSortK k l).Pairwise (fun a b => k a ≤ k b) :=
  pairwise_foldl_sInsertK k l [] (by simp)

theorem filter_sInsertK {α K : Type} [LinearOrder K] [DecidableEq K] (k : α → K) (t : K)
    (x : α) (l : List α) (hl : l.Pairwise (fun a b => k a ≤ k b)) :
    (sInsertK k x l).filter (fun a => decide (k a = t)) =
      if k x = t then l.filter (fun a => decide (k a = t)) ++ [x]
      else l.filter (fun a => decide (k a = t)) := by
  induction l with
  | nil =>
    by_cases hx : k x = t <;> simp [sInsertK, List.filter, hx]
  | cons y ys ih =>
    rcases List.pairwise_cons.mp hl with ⟨hy, hys⟩
    by_cases h : k x < k y
    · rw [sInsertK, if_pos h]
      by_cases hx : k x = t
      · have hnil : (y :: ys).filter (fun a => decide (k a = t)) = [] := by
          apply List.filter_eq_nil_iff.mpr
          intro a ha
          have hka : k y ≤ k a := by
            rcases List.mem_cons.mp ha with rfl | ha
            · exact le_refl _
            · exact hy a ha
          have hta : t < k a := lt_of_lt_of_le (hx ▸ h) hka
          simp [ne_of_gt hta]
        rw [if_pos hx, hnil]
        simp [List.filter_cons, hx, hnil]
      · rw [if_neg hx]
        simp [List.filter_cons, hx]
    · rw [sInsertK, if_neg h]
      rw [List.filter_cons, List.filter_cons, ih hys]
      by_cases hyt : k y = t <;> by_cases hx : k x = t <;> simp [hyt, hx]

theorem filter_foldl_sInsertK {α K : Type} [LinearOrder K] [DecidableEq K] (k : α → K) (t : K)
    (l : List α) :
    ∀ acc : List α, acc.Pairwise (fun a b => k a ≤ k b) →
      (l.foldl (fun acc x => sInsertK k x acc) acc).filter (fun a => decide (k a = t)) =
        acc.filter (fun a => decide (k a = t)) ++ l.filter (fun a => decide (k a = t)) := by
  induction l with
  | nil => intro acc _; simp
  | cons x xs ih =>
    intro acc h
    have step := ih (sInsertK k x acc) (pairwise_sInsertK k x acc h)
    simp only [List.foldl_cons] at step ⊢
    rw [step, filter_sInsertK k t x acc h]
    by_cases hx : k x = t
    · simp [hx, List.filter]
    · simp [hx, List.filter]

theorem filter_sSortK {α K : Type} [LinearOrder K] [DecidableEq K] (k : α → K) (t : K)
    (l : List α) :
    (sSortK k l).filter (fun a => decide (k a = t)) = l.filter (fun a => decide (k a = t)) := by
  have := filter_foldl_sInsertK k t l [] (by simp)
  simpa [sSortK] using this

theorem sInsertK_eq_append {α K : Type} [LinearOrder K] (k : α → K) (x : α) (l : List α)
    (h : ∀ y ∈ l, k y ≤ k x) : sInsertK k x l = l ++ [x] := by
  induction l with
  | nil => rfl
  | cons y ys ih =>
    have hy : k y ≤ k x := h y (by simp)
    rw [sInsertK, if_neg (not_lt.mpr hy), ih (fun z hz => h z (by simp [hz]))]
    rfl

theorem sSortK_of_pairwise {α K : Type} [LinearOrder K] (k : α → K) (l : List α)
    (hl : l.Pairwise (fun a b => k a ≤ k b)) : sSortK k l = l := by
  suffices h : ∀ l acc : List α, (acc ++ l).Pairwise (fun a b => k a ≤ k b) →
      l.foldl (fun acc x => sInsertK k x acc) acc = acc ++ l by
    simpa [sSortK] using h l [] (by simpa using hl)
  intro l
  induction l with
  | nil => intro acc _; simp
  | cons x xs ih =>
    intro acc h
    have hle : ∀ y ∈ acc, k y ≤ k x := by
      rcases List.pairwise_append.mp h with ⟨_, _, hcross⟩
      exact fun y hy => hcross y hy x (by simp)
    simp only [List.foldl_cons]
    rw [sInsertK_eq_append k x acc hle]
    have : (acc ++ [x]) ++ xs = acc ++ x :: xs := by simp
    rw [ih (acc ++ [x]) (by rw [this]; exact h), this]

/-! ## Lemmas about the JavaScript Map model -/

theorem mapInsert_of_forall_ne {K β : Type} [DecidableEq K] (m : List (K × β)) (k : K) (v : β)
    (h : ∀ e ∈ m, e.1 ≠ k) : mapInsert m k v = m ++ [(k, v)] := by
  unfold mapInsert
  rw [if_neg]
  simp only [List.any_eq_true, decide_eq_true_eq, not_exists]
  intro e
  by_cases he : e ∈ m
  · simp [he, h e he]
  · simp [he]

theorem mapInsert_of_exists {K β : Type} [DecidableEq K] (m : List (K × β)) (k : K) (v : β)
    (h : ∃ e ∈ m, e.1 = k) : mapInsert m k v = m.map (fun e => if e.1 = k then (k, v) else e) := by
  unfold mapInsert
  rw [if_pos]
  simpa [List.any_eq_true] using h

/-- Full characterization of the `Map`-insertion fold of the series
normalizer on a list already sorted by `tkey`: the resulting entries
have strictly increasing keys, each key is the `tkey` of its value, the
keys are exactly the `tkey`s of the input, and under each key survives
exactly the last input element with that key. -/
theorem mapFold_spec (l : List PricePoint)
    (hl : l.Pairwise (fun a b => tkey a ≤ tkey b)) :
    ((l.foldl (fun m item => mapInsert m (tkey item) item) []).map
        (fun e => e.1)).Pairwise (· < ·) ∧
    (∀ e ∈ l.foldl (fun m item => mapInsert m (tkey item) item) [], e.1 = tkey e.2) ∧
    (∀ q ∈ (l.foldl (fun m item => mapInsert m (tkey item) item) []).map (fun e => e.1),
      ∃ y ∈ l, tkey y = q) ∧
    (∀ y ∈ l, tkey y ∈
      (l.foldl (fun m item => mapInsert m (tkey item) item) []).map (fun e => e.1)) ∧
    (∀ t : ℚ, ((l.foldl (fun m item => mapInsert m (tkey item) item) []).map
        (fun e => e.2)).filter (fun p => decide (tkey p = t)) =
      ((l.filter (fun p => decide (tkey p = t))).getLast?).toList) := by
  induction l using List.reverseRecOn with
  | nil => simp
  | append_singleton l x ih =>
    have hsl : l.Pairwise (fun a b => tkey a ≤ tkey b) :=
      (List.pairwise_append.mp hl).1
    have hle : ∀ y ∈ l, tkey y ≤ tkey x := by
      intro y hy
      exact (List.pairwise_append.mp hl).2.2 y hy x (by simp)
    obtain ⟨ha, hb, hc, hd, he⟩ := ih hsl
    set m := l.foldl (fun m item => mapInsert m (tkey item) item) [] with hm
    have hfold : (l ++ [x]).foldl (fun m item => mapInsert m (tkey item) item) [] =
        mapInsert m (tkey x) x := by
      rw [List.foldl_append]
      rfl
    by_cases hmem : ∃ e ∈ m, e.1 = tkey x
    · -- the key is already present: it must be the key of the last entry
      have hmne : m ≠ [] := by
        rcases hmem with ⟨e, he', _⟩
        intro h0
        rw [h0] at he'
        exact absurd he' (List.not_mem_nil e)
      set w := m.getLast hmne with hw
      have hdecomp : m.dropLast ++ [w] = m := List.dropLast_append_getLast hmne
      have hkeys : m.map (fun e => e.1) = m.dropLast.map (fun e => e.1) ++ [w.1] := by
        conv_lhs => rw [← hdecomp]
        simp
      have hcross : ∀ q ∈ m.dropLast.map (fun e => e.1), q < w.1 := by
        intro q hq
        have := List.pairwise_append.mp (hkeys ▸ ha)
        exact this.2.2 q hq w.1 (by simp)
      have hwkey : w.1 = tkey x := by
        rcases hmem with ⟨e, he', hek⟩
        have hew : e ∈ m.dropLast ++ [w] := hdecomp.symm ▸ he'
        rcases List.mem_append.mp hew with hed | hew
        · exfalso
          have h1 : e.1 < w.1 := hcross e.1 (List.mem_map.mpr ⟨e, hed, rfl⟩)
          have h2 : w.1 ≤ tkey x := by
            rcases hc w.1 (List.mem_map.mpr ⟨w, List.getLast_mem hmne, rfl⟩) with ⟨y, hy, hyq⟩
            exact hyq ▸ hle y hy
          rw [hek] at h1
          exact absurd (lt_of_lt_of_le h1 h2) (lt_irrefl _)
        · have : e = w := by simpa using hew
          rw [← this, hek]
      have hfresh : ∀ e ∈ m.dropLast, e.1 ≠ tkey x := by
        intro e hed
        have h1 : e.1 < w.1 := hcross e.1 (List.mem_map.mpr ⟨e, hed, rfl⟩)
        rw [hwkey] at h1
        exact ne_of_lt h1
      have hins : mapInsert m (tkey x) x = m.dropLast ++ [(tkey x, x)] := by
        rw [mapInsert_of_exists m (tkey x) x hmem]
        conv_lhs => rw [← hdecomp]
        rw [List.map_append]
        congr 1
        · calc List.map (fun e => if e.1 = tkey x then (tkey x, x) else e) m.dropLast
              = List.map id m.dropLast :=
                List.map_congr_left (fun e hed => by rw [if_neg (hfresh e hed)]; rfl)
            _ = m.dropLast := List.map_id _
        · simp [hwkey]
      rw [hfold, hins]
      have hkeys' : (m.dropLast ++ [(tkey x, x)]).map (fun e => e.1) =
          m.map (fun e => e.1) := by
        rw [List.map_append, hkeys, hwkey]
        rfl
      have hbd : ∀ e ∈ m.dropLast, e.1 = tkey e.2 :=
        fun e hed => hb e (List.dropLast_subset m hed)
      refine ⟨?_, ?_, ?_, ?_, ?_⟩
      · rw [hkeys']; exact ha
      · intro e hee
        rcases List.mem_append.mp hee with hed | hee
        · exact hbd e hed
        · have : e = (tkey x, x) := by simpa using hee
          rw [this]
      · intro q hq
        rw [hkeys'] at hq
        rcases hc q hq with ⟨y, hy, hyq⟩
        exact ⟨y, by simp [hy], hyq⟩
      · intro y hy
        rcases List.mem_append.mp hy with hyl | hyx
        · rw [hkeys']; exact hd y hyl
        · have : y = x := by simpa using hyx
          rw [this, List.map_append]
          simp
      · intro t
        rw [List.map_append, List.filter_append]
        have hmsnd : m.map (fun e => e.2) =
            m.dropLast.map (fun e => e.2) ++ [w.2] := by
          conv_lhs => rw [← hdecomp]
          simp
        by_cases ht : tkey x = t
        · have hnil : (m.dropLast.map (fun e => e.2)).filter
              (fun p => decide (tkey p = t)) = [] := by
            apply List.filter_eq_nil_iff.mpr
            intro p hp
            rcases List.mem_map.mp hp with ⟨e, hed, hep⟩
            have : tkey p = e.1 := by rw [← hep, ← hbd e hed]
            simp [this, ht ▸ hfresh e hed]
          rw [hnil]
          have hxsel : ([(tkey x, x)].map (fun e => e.2)).filter
              (fun p => decide (tkey p = t)) = [x] := by
            simp [ht]
          rw [hxsel, List.filter_append]
          have : (List.filter (fun p => decide (tkey p = t)) [x]) = [x] := by simp [ht]
          rw [this, List.getLast?_concat]
          rfl
        · have hxnil : ([(tkey x, x)].map (fun e => e.2)).filter
              (fun p => decide (tkey p = t)) = [] := by
            simp [ht]
          rw [hxnil, List.append_nil]
          have hwnil : (List.filter (fun p => decide (tkey p = t)) [w.2]) = [] := by
            have : tkey w.2 = tkey x := by
              rw [← hb w (List.getLast_mem hmne), hwkey]
            simp [this, ht]
          have hstep : (m.dropLast.map (fun e => e.2)).filter
              (fun p => decide (tkey p = t)) =
              (m.map (fun e => e.2)).filter (fun p => decide (tkey p = t)) := by
            rw [hmsnd, List.filter_append, hwnil, List.append_nil]
          rw [hstep, he t, List.filter_append]
          have : (List.filter (fun p => decide (tkey p = t)) [x]) = [] := by simp [ht]
          rw [this, List.append_nil]
    · -- fresh key: the new entry is appended
      push_neg at hmem
      have hins : mapInsert m (tkey x) x = m ++ [(tkey x, x)] :=
        mapInsert_of_forall_ne m (tkey x) x hmem
      rw [hfold, hins]
      have hklt : ∀ q ∈ m.map (fun e => e.1), q < tkey x := by
        intro q hq
        rcases List.mem_map.mp hq with ⟨e, he', hq'⟩
        rcases hc q hq with ⟨y, hy, hyq⟩
        have h1 : q ≤ tkey x := hyq ▸ hle y hy
        have h2 : q ≠ tkey x := hq' ▸ hmem e he'
        exact lt_of_le_of_ne h1 h2
      refine ⟨?_, ?_, ?_, ?_, ?_⟩
      · rw [List.map_append]
        refine List.pairwise_append.mpr ⟨ha, by simp, ?_⟩
        intro q hq r hr
        have : r = tkey x := by simpa using hr
        rw [this]
        exact hklt q hq
      · intro e hee
        rcases List.mem_append.mp hee with hed | hee
        · exact hb e hed
        · have : e = (tkey x, x) := by simpa using hee
          rw [this]
      · intro q hq
        rw [List.map_append] at hq
        rcases List.mem_append.mp hq with hq | hq
        · rcases hc q hq with ⟨y, hy, hyq⟩
          exact ⟨y, by simp [hy], hyq⟩
        · have : q = tkey x := by simpa using hq
          exact ⟨x, by simp, this.symm⟩
      · intro y hy
        rw [List.map_append]
        rcases List.mem_append.mp hy with hyl | hyx
        · exact List.mem_append.mpr (Or.inl (hd y hyl))
        · have : y = x := by simpa using hyx
          rw [this]
          simp
      · intro t
        rw [List.map_append, List.filter_append, List.filter_append]
        by_cases ht : tkey x = t
        · have hnil : (m.map (fun e => e.2)).filter (fun p => decide (tkey p = t)) = [] := by
            apply List.filter_eq_nil_iff.mpr
            intro p hp
            rcases List.mem_map.mp hp with ⟨e, hed, hep⟩
            have : tkey p = e.1 := by rw [← hep, ← hb e hed]
            simp [this, ht ▸ hmem e hed]
          rw [hnil]
          have hxsel : ([(tkey x, x)].map (fun e => e.2)).filter
              (fun p => decide (tkey p = t)) = [x] := by simp [ht]
          rw [hxsel]
          have : (List.filter (fun p => decide (tkey p = t)) [x]) = [x] := by simp [ht]
          rw [this, List.getLast?_concat]
          rfl
        · have hxnil : ([(tkey x, x)].map (fun e => e.2)).filter
              (fun p => decide (tkey p = t)) = [] := by simp [ht]
          rw [hxnil, List.append_nil, he t]
          have : (List.filter (fun p => decide (tkey p = t)) [x]) = [] := by simp [ht]
          rw [this, List.append_nil]

/-- Monotone transfer from the sort comparator (`dateMs`) to the dedup
key (`getTime() / 1000`). -/
theorem tkey_le_of_dateMs_le {a b : PricePoint} (h : a.dateMs ≤ b.dateMs) : tkey a ≤ tkey b := by
  unfold tkey
  have hc : (a.dateMs : ℚ) ≤ (b.dateMs : ℚ) := Int.cast_le.mpr h
  have hp : (0 : ℚ) < 1000 := by norm_num
  exact (div_le_div_iff_of_pos_right hp).mpr hc

/-- C9: the normalized series (`uniqueData`) has strictly increasing,
unique timestamp keys, and at every timestamp exactly the last element
of the stably sorted input with that key survives (last occurrence wins
after the ascending sort); in particular, for two input points sharing
a timestamp, exactly one survives, namely the one that sorts last. -/
theorem uniqueData_strict_sorted_last_wins (raw : List PricePoint) :
    ((uniqueData raw).Pairwise fun a b => tkey a < tkey b) ∧
    (∀ t : ℚ, (uniqueData raw).filter (fun p => decide (tkey p = t)) =
      (((sSortK (fun p => p.dateMs) raw).filter
        (fun p => decide (tkey p = t))).getLast?).toList) := by
  have hs : (sSortK (fun p => p.dateMs) raw).Pairwise
      (fun a b => (fun p : PricePoint => p.dateMs) a ≤ (fun p : PricePoint => p.dateMs) b) :=
    pairwise_sSortK (fun p => p.dateMs) raw
  have hst : (sSortK (fun p => p.dateMs) raw).Pairwise (fun a b => tkey a ≤ tkey b) :=
    hs.imp (fun h => tkey_le_of_dateMs_le h)
  obtain ⟨ha, hb, _, _, he⟩ := mapFold_spec (sSortK (fun p => p.dateMs) raw) hst
  constructor
  · have hkeys := (List.pairwise_map.mp ha)
    have : ((sSortK (fun p => p.dateMs) raw).foldl
        (fun m item => mapInsert m (tkey item) item) []).Pairwise
        (fun e f => tkey e.2 < tkey f.2) := by
      refine hkeys.imp_of_mem ?_
      intro e f hee hef hlt
      rw [← hb e hee, ← hb f hef]
      exact hlt
    exact List.pairwise_map.mpr this
  · intro t
    exact he t

/-! ## Lemmas for the confidence-band merge -/

theorem foldl_mapInsert_fresh {β : Type} (f : ℕ → ℚ) (g : ℕ → β)
    (hf : Function.Injective f) (N : ℕ) :
    (List.range N).foldl (fun m i => mapInsert m (f i) (g i)) [] =
      (List.range N).map (fun i => (f i, g i)) := by
  induction N with
  | zero => rfl
  | succ n ih =>
    rw [List.range_succ, List.foldl_append, List.map_append, ih]
    simp only [List.foldl_cons, List.foldl_nil]
    have hfresh : ∀ e ∈ (List.range n).map (fun i => (f i, g i)), e.1 ≠ f n := by
      intro e hee
      rcases List.mem_map.mp hee with ⟨i, hi, hie⟩
      rw [← hie]
      intro hfi
      have hin := hf hfi
      rw [hin] at hi
      exact absurd (List.mem_range.mp hi) (lt_irrefl n)
    rw [mapInsert_of_forall_ne _ _ _ hfresh]
    simp

theorem mapInsert_tabulated {β : Type} (f : ℕ → ℚ) (hf : Function.Injective f) (N : ℕ)
    (g : ℕ → β) (j : ℕ) (hj : j < N) (v : β) :
    mapInsert ((List.range N).map (fun i => (f i, g i))) (f j) v =
      (List.range N).map (fun i => (f i, if i = j then v else g i)) := by
  rw [mapInsert_of_exists]
  · rw [List.map_map]
    apply List.map_congr_left
    intro i _
    by_cases hij : i = j
    · simp [Function.comp, hij]
    · have hne : f i ≠ f j := fun hcon => hij (hf hcon)
      simp [Function.comp, hne, hij]
  · exact ⟨(f j, g j), List.mem_map.mpr ⟨j, List.mem_range.mpr hj, rfl⟩, rfl⟩

theorem foldl_mapInsert_overwrite {β : Type} (f : ℕ → ℚ) (hf : Function.Injective f) (N : ℕ)
    (vNew vOld : ℕ → β) :
    ∀ m : ℕ, m ≤ N →
      (List.range m).foldl
          (fun acc index => mapInsert acc (f (N - 1 - index)) (vNew (N - 1 - index)))
          ((List.range N).map (fun i => (f i, vOld i))) =
        (List.range N).map (fun i => (f i, if N - m ≤ i then vNew i else vOld i)) := by
  intro m
  induction m with
  | zero =>
    intro _
    simp only [List.range_zero, List.foldl_nil]
    apply List.map_congr_left
    intro i hi
    have := List.mem_range.mp hi
    rw [if_neg (by omega)]
  | succ n ih =>
    intro hm
    rw [List.range_succ, List.foldl_append, ih (by omega)]
    simp only [List.foldl_cons, List.foldl_nil]
    rw [mapInsert_tabulated f hf N _ (N - 1 - n) (by omega)]
    apply List.map_congr_left
    intro i hi
    have hiN := List.mem_range.mp hi
    congr 1
    by_cases h1 : i = N - 1 - n
    · rw [if_pos h1, if_pos (by omega), h1]
    · rw [if_neg h1]
      by_cases h2 : N - n ≤ i
      · rw [if_pos h2, if_pos (by omega)]
      · rw [if_neg h2, if_neg (by omega)]

theorem syntheticTime_injective (lastTime : ℚ) :
    Function.Injective (fun i : ℕ => lastTime + ((i : ℚ) + 1) * 3600) := by
  intro i j hij
  simp only at hij
  have h1 : ((i : ℚ) + 1) * 3600 = ((j : ℚ) + 1) * 3600 := by linarith
  have h2 : (i : ℚ) = (j : ℚ) := by linarith
  exact_mod_cast h2

theorem syntheticTime_mono (lastTime : ℚ) {i j : ℕ} (hij : i < j) :
    lastTime + ((i : ℚ) + 1) * 3600 ≤ lastTime + ((j : ℚ) + 1) * 3600 := by
  have hc : (i : ℚ) ≤ (j : ℚ) := Nat.cast_le.mpr (le_of_lt hij)
  nlinarith

/-- C1 (amended): the merged confidence-band sequence has exactly N
points, one per synthetic timestamp `lastTime + (j+1)*3600` in
ascending time order, and the value at each timestamp is the lower
confidence bound: the single time-keyed map dedups across the two
halves, so the later-inserted lower bounds overwrite all the upper
bounds. -/
theorem confidenceData_lower_only (predictions upper lower : List ℚ) (lastTime : ℚ)
    (hN : 1 ≤ predictions.length)
    (hu : upper.length = predictions.length)
    (hl : lower.length = predictions.length) :
    confidenceData predictions upper lower lastTime =
      (List.range predictions.length).map
        (fun (j : ℕ) => (lastTime + ((j : ℚ) + 1) * 3600, lower.getD j 0)) ∧
    (confidenceData predictions upper lower lastTime).length = predictions.length := by
  have hf := syntheticTime_injective lastTime
  have h1 := foldl_mapInsert_fresh (fun i => lastTime + ((i : ℚ) + 1) * 3600)
    (fun i => (lastTime + ((i : ℚ) + 1) * 3600, upper.getD i 0)) hf predictions.length
  have h2 := foldl_mapInsert_overwrite (fun i => lastTime + ((i : ℚ) + 1) * 3600) hf
    predictions.length
    (fun j => (lastTime + ((j : ℚ) + 1) * 3600, lower.getD j 0))
    (fun i => (lastTime + ((i : ℚ) + 1) * 3600, upper.getD i 0))
    predictions.length le_rfl
  simp only [] at h1 h2
  have hmain : confidenceData predictions upper lower lastTime =
      (List.range predictions.length).map
        (fun (j : ℕ) => (lastTime + ((j : ℚ) + 1) * 3600, lower.getD j 0)) := by
    unfold confidenceData
    simp only []
    rw [h1, h2]
    have h3 : (List.range predictions.length).map
        (fun (i : ℕ) => (lastTime + ((i : ℚ) + 1) * 3600,
          if predictions.length - predictions.length ≤ i
          then (lastTime + ((i : ℚ) + 1) * 3600, lower.getD i 0)
          else (lastTime + ((i : ℚ) + 1) * 3600, upper.getD i 0))) =
        (List.range predictions.length).map
          (fun (i : ℕ) => (lastTime + ((i : ℚ) + 1) * 3600,
            (lastTime + ((i : ℚ) + 1) * 3600, lower.getD i 0))) := by
      apply List.map_congr_left
      intro i _
      rw [if_pos (by omega)]
    rw [h3, List.map_map]
    have h4 : ((fun e : ℚ × (ℚ × ℚ) => e.2) ∘
        (fun i : ℕ => (lastTime + ((i : ℚ) + 1) * 3600,
          (lastTime + ((i : ℚ) + 1) * 3600, lower.getD i 0)))) =
        (fun i : ℕ => (lastTime + ((i : ℚ) + 1) * 3600, lower.getD i 0)) := rfl
    rw [h4]
    apply sSortK_of_pairwise
    apply List.pairwise_map.mpr
    have := List.pairwise_lt_range predictions.length
    exact this.imp (fun hij => syntheticTime_mono lastTime hij)
  exact ⟨hmain, by rw [hmain]; simp⟩

/-- Witness for the amended C1 theorem at a concrete forecast of length
2 over a one-point price series. -/
theorem confidenceData_lower_only_witness :
    1 ≤ ([7, 8] : List ℚ).length ∧ ([10, 11] : List ℚ).length = ([7, 8] : List ℚ).length ∧
    ([5, 6] : List ℚ).length = ([7, 8] : List ℚ).length ∧
    (confidenceData [7, 8] [10, 11] [5, 6] (lastTimeOf [⟨0, 1, 1, 1, 1, none⟩]) =
      (List.range ([7, 8] : List ℚ).length).map
        (fun (j : ℕ) => (lastTimeOf [⟨0, 1, 1, 1, 1, none⟩] + ((j : ℚ) + 1) * 3600,
          ([5, 6] : List ℚ).getD j 0)) ∧
    (confidenceData [7, 8] [10, 11] [5, 6] (lastTimeOf [⟨0, 1, 1, 1, 1, none⟩])).length =
      ([7, 8] : List ℚ).length) :=
  ⟨by decide, by decide, by decide,
    confidenceData_lower_only [7, 8] [10, 11] [5, 6] (lastTimeOf [⟨0, 1, 1, 1, 1, none⟩])
      (by decide) (by decide) (by decide)⟩

/-- Counterexample to C1 as stated: for a forecast of length N = 1
(upper `[10]`, lower `[5]`) over the one-point price series with
normalized last timestamp `0`, the merged confidence-band sequence has
1 point, not 2N = 2 — the lower-bound insertion overwrote the
upper-bound entry at the shared timestamp. -/
theorem confidenceData_not_two_n :
    (confidenceData [7] [10] [5] (lastTimeOf [⟨0, 1, 1, 1, 1, none⟩])).length ≠
      2 * ([7] : List ℚ).length ∧
    confidenceData [7] [10] [5] (lastTimeOf [⟨0, 1, 1, 1, 1, none⟩]) = [(3600, 5)] := by
  have hev : confidenceData [7] [10] [5] (lastTimeOf [⟨0, 1, 1, 1, 1, none⟩]) = [(3600, 5)] := by
    norm_num [confidenceData, lastTimeOf, uniqueData, sSortK, sInsertK, mapInsert, tkey,
      List.range_succ]
  refine ⟨?_, hev⟩
  rw [hev]
  decide

/-! ## Scorer lemmas -/

theorem rmseBucket_mem (x : ℚ) : rmseBucket x = 25 ∨ rmseBucket x = 15 ∨ rmseBucket x = 5 := by
  unfold rmseBucket
  split_ifs <;> simp

theorem maeBucket_mem (x : ℚ) : maeBucket x = 25 ∨ maeBucket x = 15 ∨ maeBucket x = 5 := by
  unfold maeBucket
  split_ifs <;> simp

theorem mapeBucket_mem (x : ℚ) : mapeBucket x = 25 ∨ mapeBucket x = 15 ∨ mapeBucket x = 5 := by
  unfold mapeBucket
  split_ifs <;> simp

theorem daBucket_mem (x : ℚ) : daBucket x = 25 ∨ daBucket x = 15 ∨ daBucket x = 5 := by
  unfold daBucket
  split_ifs <;> simp

/-- C2 (amended): the overall score is defined if and only if all four
metrics are truthy (present, non-null, and non-zero — JavaScript
truthiness also rejects a metric value of 0); whenever the score is
undefined it is `null`, and a defined score is never `0` (so no zero
and no partial sum is ever returned for an incomplete set). -/
theorem overallScore_defined_iff_truthy (m : Metrics) :
    ((calculateOverallScore m).isSome = true ↔
      (truthy m.rmse = true ∧ truthy m.mae = true ∧ truthy m.mape = true ∧
        truthy m.directional_accuracy = true)) ∧
    calculateOverallScore m ≠ some 0 := by
  have hb1 := rmseBucket_mem (m.rmse.getD 0)
  have hb2 := maeBucket_mem (m.mae.getD 0)
  have hb3 := mapeBucket_mem (m.mape.getD 0)
  have hb4 := daBucket_mem (m.directional_accuracy.getD 0)
  unfold calculateOverallScore
  by_cases h : (truthy m.rmse && truthy m.mae && truthy m.mape &&
      truthy m.directional_accuracy) = true
  · rw [if_pos h]
    simp only [Bool.and_eq_true] at h
    refine ⟨?_, ?_⟩
    · simp only [Option.isSome_some, true_iff]
      exact ⟨h.1.1.1, h.1.1.2, h.1.2, h.2⟩
    · intro hcon
      have hsum : rmseBucket (m.rmse.getD 0) + maeBucket (m.mae.getD 0) +
          mapeBucket (m.mape.getD 0) + daBucket (m.directional_accuracy.getD 0) = 0 :=
        Option.some_injective _ hcon
      rcases hb1 with h1 | h1 | h1 <;> rcases hb2 with h2 | h2 | h2 <;>
        rcases hb3 with h3 | h3 | h3 <;> rcases hb4 with h4 | h4 | h4 <;> omega
  · rw [if_neg h]
    refine ⟨?_, by simp⟩
    simp only [Option.isSome_none, Bool.false_eq_true, false_iff]
    intro hcon
    exact h (by simp [hcon.1, hcon.2.1, hcon.2.2.1, hcon.2.2.2])

/-- Counterexample to C2 as stated: with all four metrics present and
non-null but `rmse = 0`, the scorer still returns `null` (the guard
uses JavaScript truthiness, which treats `0` as missing), so
"defined iff present and non-null" fails. -/
theorem overallScore_present_zero_is_none :
    ¬ (((calculateOverallScore ⟨some 0, some 1, some 1, some 70⟩).isSome = true) ↔
      ((Metrics.mk (some 0) (some 1) (some 1) (some 70)).rmse.isSome = true ∧
        (Metrics.mk (some 0) (some 1) (some 1) (some 70)).mae.isSome = true ∧
        (Metrics.mk (some 0) (some 1) (some 1) (some 70)).mape.isSome = true ∧
        (Metrics.mk (some 0) (some 1) (some 1) (some 70)).directional_accuracy.isSome = true)) := by
  decide

/-- C7 (amended): for any four supplied finite metric values that are
all non-zero (truthy), the overall score is defined and is a multiple
of 10 in `[20, 100]` — i.e. it lies in `{20, 30, ..., 100}`, with floor
20, never 0; the concrete metric set
`{rmse: 1.5, mae: 1.0, mape: 1.5, directional_accuracy: 70}` scores
`100` with label `Excellent`. -/
theorem overallScore_bounds :
    (∀ m : Metrics, truthy m.rmse = true → truthy m.mae = true → truthy m.mape = true →
      truthy m.directional_accuracy = true →
      (calculateOverallScore m).isSome = true ∧
      20 ≤ (calculateOverallScore m).getD 0 ∧ (calculateOverallScore m).getD 0 ≤ 100 ∧
      (calculateOverallScore m).getD 0 % 10 = 0) ∧
    calculateOverallScore ⟨some (3/2), some 1, some (3/2), some 70⟩ = some 100 ∧
    scoreLabel 100 = "Excellent" := by
  refine ⟨?_, ?_, rfl⟩
  · intro m h1 h2 h3 h4
    unfold calculateOverallScore
    rw [if_pos (by simp [h1, h2, h3, h4])]
    refine ⟨rfl, ?_⟩
    simp only [Option.getD_some]
    rcases rmseBucket_mem (m.rmse.getD 0) with hb1 | hb1 | hb1 <;>
      rcases maeBucket_mem (m.mae.getD 0) with hb2 | hb2 | hb2 <;>
      rcases mapeBucket_mem (m.mape.getD 0) with hb3 | hb3 | hb3 <;>
      rcases daBucket_mem (m.directional_accuracy.getD 0) with hb4 | hb4 | hb4 <;> omega
  · norm_num [calculateOverallScore, truthy, rmseBucket, maeBucket, mapeBucket, daBucket]

/-- Witness for the amended C7 theorem at a concrete all-truthy metric
set. -/
theorem overallScore_bounds_witness :
    truthy (some (1 : ℚ)) = true ∧
    ((calculateOverallScore ⟨some 1, some 1, some 1, some 70⟩).isSome = true ∧
      20 ≤ (calculateOverallScore ⟨some 1, some 1, some 1, some 70⟩).getD 0 ∧
      (calculateOverallScore ⟨some 1, some 1, some 1, some 70⟩).getD 0 ≤ 100 ∧
      (calculateOverallScore ⟨some 1, some 1, some 1, some 70⟩).getD 0 % 10 = 0) :=
  ⟨by decide, overallScore_bounds.1 ⟨some 1, some 1, some 1, some 70⟩
    (by decide) (by decide) (by decide) (by decide)⟩

/-- Counterexample to C7 as stated: the four metric inputs
`{rmse: 0, mae: 1, mape: 1, directional_accuracy: 70}` are all supplied
and finite, yet the overall score is `null` rather than a multiple of 5
in `{20, ..., 100}`. -/
theorem overallScore_supplied_but_none :
    calculateOverallScore ⟨some 0, some 1, some 1, some 70⟩ = none := by
  decide

/-! ## Indexing helpers -/

theorem getD_map_range {γ : Type} (n : ℕ) (f : ℕ → γ) (j : ℕ) (hj : j < n) (d : γ) :
    ((List.range n).map f).getD j d = f j := by
  rw [List.getD_eq_getElem?_getD, List.getElem?_map, List.getElem?_range hj]
  rfl

theorem getD_zipWith {γ δ ε : Type} (f : γ → δ → ε) :
    ∀ (A : List γ) (B : List δ) (i : ℕ), i < A.length → i < B.length →
      ∀ (d : ε) (dA : γ) (dB : δ),
      (List.zipWith f A B).getD i d = f (A.getD i dA) (B.getD i dB) := by
  intro A
  induction A with
  | nil => intro B i h; simp at h
  | cons a as ih =>
    intro B i hA hB d dA dB
    cases B with
    | nil => simp at hB
    | cons b bs =>
      cases i with
      | zero => simp
      | succ n =>
        simp only [List.zipWith_cons_cons, List.getD_cons_succ]
        exact ih bs n (by simpa using hA) (by simpa using hB) d dA dB

/-! ## RSI bounds (C5) -/

theorem gainsOf_nonneg (prices : List ℚ) : ∀ g ∈ gainsOf prices, 0 ≤ g := by
  intro g hg
  rcases List.mem_map.mp hg with ⟨c, _, hc⟩
  rw [← hc]
  by_cases h : c > 0 <;> simp [h] <;> linarith

theorem lossesOf_nonneg (prices : List ℚ) : ∀ l ∈ lossesOf prices, 0 ≤ l := by
  intro l hl
  rcases List.mem_map.mp hl with ⟨c, _, hc⟩
  rw [← hc]
  by_cases h : c < 0 <;> simp [h]

/-- C5: for a closes sequence longer than the period (period ≥ 1),
every RSI output lies in `[0, 100]`; moreover any window whose losses
are all zero produces exactly `100` (the `avgLoss == 0` guard fires, so
there is no division by zero). -/
theorem calculateRSI_bounds (prices : List ℚ) (period : ℕ) (hp : 1 ≤ period)
    (hlen : period < prices.length) :
    (∀ x ∈ calculateRSI prices period, 0 ≤ x ∧ x ≤ 100) ∧
    (∀ j, j < (calculateRSI prices period).length →
      (∀ l ∈ ((lossesOf prices).drop j).take period, l = 0) →
      (calculateRSI prices period).getD j 0 = 100) := by
  have hper : (0 : ℚ) < (period : ℚ) := by
    exact_mod_cast Nat.lt_of_lt_of_le Nat.zero_lt_one hp
  constructor
  · intro x hx
    unfold calculateRSI at hx
    rcases List.mem_map.mp hx with ⟨j, _, hjx⟩
    simp only [] at hjx
    set avgGain := (((gainsOf prices).drop j).take period).sum / (period : ℚ) with hG
    set avgLoss := (((lossesOf prices).drop j).take period).sum / (period : ℚ) with hL
    have hGnn : 0 ≤ avgGain := by
      apply div_nonneg _ (le_of_lt hper)
      apply List.sum_nonneg
      intro g hg
      exact gainsOf_nonneg prices g (List.mem_of_mem_drop (List.mem_of_mem_take hg))
    have hLnn : 0 ≤ avgLoss := by
      apply div_nonneg _ (le_of_lt hper)
      apply List.sum_nonneg
      intro l hl
      exact lossesOf_nonneg prices l (List.mem_of_mem_drop (List.mem_of_mem_take hl))
    by_cases hL0 : avgLoss = 0
    · rw [if_pos hL0] at hjx
      rw [← hjx]
      norm_num
    · rw [if_neg hL0] at hjx
      have hLpos : 0 < avgLoss := lt_of_le_of_ne hLnn (Ne.symm hL0)
      have hrs : 0 ≤ avgGain / avgLoss := div_nonneg hGnn (le_of_lt hLpos)
      have hqpos : 0 < 100 / (1 + avgGain / avgLoss) := by
        apply div_pos (by norm_num)
        linarith
      have hqle : 100 / (1 + avgGain / avgLoss) ≤ 100 :=
        div_le_self (by norm_num) (by linarith)
      constructor <;> rw [← hjx] <;> linarith
  · intro j hj hz
    have hcount : (calculateRSI prices period).length =
        (gainsOf prices).length + 1 - period := by
      unfold calculateRSI
      simp
    rw [hcount] at hj
    unfold calculateRSI
    rw [getD_map_range _ _ j hj]
    simp only []
    rw [List.sum_eq_zero hz]
    rw [zero_div]
    rw [if_pos rfl]

/-- Witness for the RSI bounds theorem on the 15-point increasing
series with period 14. -/
theorem calculateRSI_bounds_witness :
    1 ≤ 14 ∧ 14 < ([0, 1, 2, 3, 4, 5, 6, 7, 8, 9, 10, 11, 12, 13, 14] : List ℚ).length ∧
    ((∀ x ∈ calculateRSI [0, 1, 2, 3, 4, 5, 6, 7, 8, 9, 10, 11, 12, 13, 14] 14,
        0 ≤ x ∧ x ≤ 100) ∧
      (∀ j, j < (calculateRSI [0, 1, 2, 3, 4, 5, 6, 7, 8, 9, 10, 11, 12, 13, 14] 14).length →
        (∀ l ∈ ((lossesOf [0, 1, 2, 3, 4, 5, 6, 7, 8, 9, 10, 11, 12, 13, 14]).drop j).take 14,
          l = 0) →
        (calculateRSI [0, 1, 2, 3, 4, 5, 6, 7, 8, 9, 10, 11, 12, 13, 14] 14).getD j 0 = 100)) :=
  ⟨by decide, by decide,
    calculateRSI_bounds [0, 1, 2, 3, 4, 5, 6, 7, 8, 9, 10, 11, 12, 13, 14] 14
      (by decide) (by decide)⟩

/-! ## EMA / MACD lemmas (C3, C6) -/

theorem length_calculateEMA (l : List (Option ℚ)) (period : ℕ) (h : l ≠ []) :
    (calculateEMA l period).length = l.length := by
  cases l with
  | nil => exact absurd rfl h
  | cons p rest => simp [calculateEMA, List.length_scanl]

theorem scanl_emaStep_isSome (k : ℚ) :
    ∀ (rest : List (Option ℚ)) (b : Option ℚ), b.isSome = true →
      (∀ x ∈ rest, x.isSome = true) →
      ∀ y ∈ List.scanl (fun e x =>
        match e, x with
        | some ev, some xv => some (xv * k + ev * (1 - k))
        | _, _ => none) b rest, y.isSome = true := by
  intro rest
  induction rest with
  | nil =>
    intro b hb _ y hy
    simp only [List.scanl] at hy
    rcases List.mem_singleton.mp hy with rfl
    exact hb
  | cons x xs ih =>
    intro b hb hall y hy
    rw [List.scanl_cons] at hy
    rcases List.mem_append.mp hy with hy | hy
    · rcases List.mem_singleton.mp hy with rfl
      exact hb
    · apply ih _ _ _ y hy
      · obtain ⟨bv, hbv⟩ := Option.isSome_iff_exists.mp hb
        obtain ⟨xv, hxv⟩ := Option.isSome_iff_exists.mp (hall x (by simp))
        rw [hbv, hxv]
        rfl
      · intro z hz
        exact hall z (by simp [hz])

theorem calculateEMA_isSome (l : List (Option ℚ)) (period : ℕ) (h : l ≠ [])
    (hall : ∀ x ∈ l, x.isSome = true) :
    ∀ y ∈ calculateEMA l period, y.isSome = true := by
  cases l with
  | nil => exact absurd rfl h
  | cons p rest =>
    intro y hy
    apply scanl_emaStep_isSome (2 / ((period : ℚ) + 1)) rest p (hall p (by simp))
      (fun x hx => hall x (by simp [hx])) y
    exact hy

theorem macd_lengths (closes : List ℚ) (fastPeriod slowPeriod signalPeriod : ℕ)
    (h : closes ≠ []) :
    (calculateMACD closes fastPeriod slowPeriod signalPeriod).macdLine.length =
      closes.length ∧
    (calculateMACD closes fastPeriod slowPeriod signalPeriod).signalLine.length =
      closes.length ∧
    (calculateMACD closes fastPeriod slowPeriod signalPeriod).histogram.length =
      closes.length := by
  have hmap : closes.map some ≠ ([] : List (Option ℚ)) := by
    simpa [List.map_eq_nil_iff] using h
  have hf : (calculateEMA (closes.map some) fastPeriod).length = closes.length := by
    rw [length_calculateEMA _ _ hmap, List.length_map]
  have hs : (calculateEMA (closes.map some) slowPeriod).length = closes.length := by
    rw [length_calculateEMA _ _ hmap, List.length_map]
  have hmacd : (calculateMACD closes fastPeriod slowPeriod signalPeriod).macdLine.length =
      closes.length := by
    simp only [calculateMACD, List.length_zipWith, hf, hs, min_self]
  have hmacdne : (calculateMACD closes fastPeriod slowPeriod signalPeriod).macdLine ≠ [] := by
    intro hcon
    apply h
    have h0 : closes.length = 0 := by
      rw [← hmacd, hcon]
      rfl
    exact List.length_eq_zero.mp h0
  have hsig : (calculateMACD closes fastPeriod slowPeriod signalPeriod).signalLine.length =
      closes.length := by
    have : (calculateMACD closes fastPeriod slowPeriod signalPeriod).signalLine =
        calculateEMA (calculateMACD closes fastPeriod slowPeriod signalPeriod).macdLine
          signalPeriod := rfl
    rw [this, length_calculateEMA _ _ hmacdne, hmacd]
  refine ⟨hmacd, hsig, ?_⟩
  have : (calculateMACD closes fastPeriod slowPeriod signalPeriod).histogram =
      List.zipWith optSub (calculateMACD closes fastPeriod slowPeriod signalPeriod).macdLine
        (calculateMACD closes fastPeriod slowPeriod signalPeriod).signalLine := rfl
  rw [this, List.length_zipWith, hmacd, hsig, min_self]

/-- C6: for a non-empty closes sequence and any period ≥ 1, EMA
preserves length and is seeded with the first element; consequently
MACD's three outputs all have the input's length, every entry is a
finite number, and `histogram[i] = macdLine[i] - signalLine[i]` exactly
for every index. -/
theorem ema_macd_consistency (closes : List ℚ)
    (period fastPeriod slowPeriod signalPeriod : ℕ)
    (hne : closes ≠ []) (hp : 1 ≤ period) :
    (calculateEMA (closes.map some) period).length = closes.length ∧
    (calculateEMA (closes.map some) period).head? = closes.head?.map some ∧
    ((calculateMACD closes fastPeriod slowPeriod signalPeriod).macdLine.length =
        closes.length ∧
      (calculateMACD closes fastPeriod slowPeriod signalPeriod).signalLine.length =
        closes.length ∧
      (calculateMACD closes fastPeriod slowPeriod signalPeriod).histogram.length =
        closes.length) ∧
    (∀ i, i < closes.length → ∃ mv sv : ℚ,
      (calculateMACD closes fastPeriod slowPeriod signalPeriod).macdLine.getD i none =
        some mv ∧
      (calculateMACD closes fastPeriod slowPeriod signalPeriod).signalLine.getD i none =
        some sv ∧
      (calculateMACD closes fastPeriod slowPeriod signalPeriod).histogram.getD i none =
        some (mv - sv)) := by
  have hmap : closes.map some ≠ ([] : List (Option ℚ)) := by
    simpa [List.map_eq_nil_iff] using hne
  have hmapsome : ∀ x ∈ closes.map some, x.isSome = true := by
    intro x hx
    rcases List.mem_map.mp hx with ⟨c, _, hc⟩
    rw [← hc]
    rfl
  refine ⟨?_, ?_, macd_lengths closes fastPeriod slowPeriod signalPeriod hne, ?_⟩
  · rw [length_calculateEMA _ _ hmap, List.length_map]
  · cases closes with
    | nil => exact absurd rfl hne
    | cons c cs =>
      have hhead : ∀ (f : Option ℚ → Option ℚ → Option ℚ) (b : Option ℚ)
          (l : List (Option ℚ)), (List.scanl f b l).head? = some b := by
        intro f b l
        cases l with
        | nil => rfl
        | cons x xs =>
          rw [List.scanl_cons]
          rfl
      simp [calculateEMA, hhead]
  · obtain ⟨hM, hG, hH⟩ := macd_lengths closes fastPeriod slowPeriod signalPeriod hne
    set r := calculateMACD closes fastPeriod slowPeriod signalPeriod with hrdef
    have hMzip : r.macdLine = List.zipWith optSub
        (calculateEMA (closes.map some) fastPeriod)
        (calculateEMA (closes.map some) slowPeriod) := rfl
    have hGema : r.signalLine = calculateEMA r.macdLine signalPeriod := rfl
    have hHzip : r.histogram = List.zipWith optSub r.macdLine r.signalLine := rfl
    have hFsome : ∀ y ∈ calculateEMA (closes.map some) fastPeriod, y.isSome = true :=
      calculateEMA_isSome _ _ hmap hmapsome
    have hSsome : ∀ y ∈ calculateEMA (closes.map some) slowPeriod, y.isSome = true :=
      calculateEMA_isSome _ _ hmap hmapsome
    have hMsome : ∀ y ∈ r.macdLine, y.isSome = true := by
      intro y hy
      rw [hMzip] at hy
      rcases List.mem_iff_getElem.mp hy with ⟨n, hn, hny⟩
      rw [List.getElem_zipWith] at hny
      obtain ⟨fv, hfv⟩ := Option.isSome_iff_exists.mp
        (hFsome _ (List.getElem_mem (by
          rw [List.length_zipWith] at hn
          exact lt_of_lt_of_le hn (min_le_left _ _))))
      obtain ⟨sv, hsv⟩ := Option.isSome_iff_exists.mp
        (hSsome _ (List.getElem_mem (by
          rw [List.length_zipWith] at hn
          exact lt_of_lt_of_le hn (min_le_right _ _))))
      rw [← hny, hfv, hsv]
      rfl
    have hMne : r.macdLine ≠ [] := by
      intro hcon
      apply hne
      apply List.length_eq_zero.mp
      rw [← hM, hcon]
      rfl
    have hGsome : ∀ y ∈ r.signalLine, y.isSome = true := by
      rw [hGema]
      exact calculateEMA_isSome _ _ hMne hMsome
    intro i hi
    have hbM : i < r.macdLine.length := by rw [hM]; exact hi
    have hbG : i < r.signalLine.length := by rw [hG]; exact hi
    have hMD : r.macdLine.getD i none ∈ r.macdLine := by
      rw [List.getD_eq_getElem?_getD, List.getElem?_eq_getElem hbM, Option.getD_some]
      exact List.getElem_mem hbM
    have hGD : r.signalLine.getD i none ∈ r.signalLine := by
      rw [List.getD_eq_getElem?_getD, List.getElem?_eq_getElem hbG, Option.getD_some]
      exact List.getElem_mem hbG
    obtain ⟨mv, hmv⟩ := Option.isSome_iff_exists.mp (hMsome _ hMD)
    obtain ⟨sv, hsv⟩ := Option.isSome_iff_exists.mp (hGsome _ hGD)
    refine ⟨mv, sv, hmv, hsv, ?_⟩
    have hHD : r.histogram.getD i none =
        optSub (r.macdLine.getD i none) (r.signalLine.getD i none) := by
      rw [hHzip]
      exact getD_zipWith optSub r.macdLine r.signalLine i hbM hbG none none none
    rw [hHD, hmv, hsv]
    rfl

/-- Witness for the EMA/MACD consistency theorem on a concrete
three-point series. -/
theorem ema_macd_consistency_witness :
    ([1, 2, 3] : List ℚ) ≠ [] ∧ 1 ≤ 12 ∧
    ((calculateEMA (([1, 2, 3] : List ℚ).map some) 12).length = ([1, 2, 3] : List ℚ).length ∧
      (calculateEMA (([1, 2, 3] : List ℚ).map some) 12).head? =
        ([1, 2, 3] : List ℚ).head?.map some ∧
      ((calculateMACD [1, 2, 3] 12 26 9).macdLine.length = ([1, 2, 3] : List ℚ).length ∧
        (calculateMACD [1, 2, 3] 12 26 9).signalLine.length = ([1, 2, 3] : List ℚ).length ∧
        (calculateMACD [1, 2, 3] 12 26 9).histogram.length = ([1, 2, 3] : List ℚ).length) ∧
      (∀ i, i < ([1, 2, 3] : List ℚ).length → ∃ mv sv : ℚ,
        (calculateMACD [1, 2, 3] 12 26 9).macdLine.getD i none = some mv ∧
        (calculateMACD [1, 2, 3] 12 26 9).signalLine.getD i none = some sv ∧
        (calculateMACD [1, 2, 3] 12 26 9).histogram.getD i none = some (mv - sv))) :=
  ⟨by decide, by decide, ema_macd_consistency [1, 2, 3] 12 12 26 9 (by decide) (by decide)⟩

/-- C3 (amended): RSI, Bollinger Bands and Stochastic %K return an
empty output sequence (and cannot throw) whenever the input series is
strictly shorter than the lookback period; MACD does not share this
behaviour — its three outputs always have the same length as the input
closes, hence are non-empty for any non-empty input even when it is
shorter than the fast/slow/signal periods. -/
theorem short_input_empty_output :
    (∀ (prices : List ℚ) (period : ℕ), 1 ≤ period → prices.length < period →
      calculateRSI prices period = []) ∧
    (∀ (prices : List ℚ) (period : ℕ), 1 ≤ period → prices.length < period →
      bollingerWindows prices period = [] ∧
      (calculateBollingerBands prices period 2).sma = [] ∧
      (calculateBollingerBands prices period 2).upperBand = [] ∧
      (calculateBollingerBands prices period 2).lowerBand = []) ∧
    (∀ (highs lows closes : List ℚ) (period : ℕ), 1 ≤ period → closes.length < period →
      calculateStochastic highs lows closes period = []) ∧
    (∀ (closes : List ℚ) (fastPeriod slowPeriod signalPeriod : ℕ), closes ≠ [] →
      (calculateMACD closes fastPeriod slowPeriod signalPeriod).macdLine.length =
        closes.length ∧
      (calculateMACD closes fastPeriod slowPeriod signalPeriod).signalLine.length =
        closes.length ∧
      (calculateMACD closes fastPeriod slowPeriod signalPeriod).histogram.length =
        closes.length) := by
  refine ⟨?_, ?_, ?_, fun closes f s g h => macd_lengths closes f s g h⟩
  · intro prices period h1 h2
    have hg : (gainsOf prices).length = min prices.length (prices.length - 1) := by
      simp [gainsOf, changesOf]
    simp only [calculateRSI]
    rw [show (gainsOf prices).length + 1 - period = 0 by omega]
    rfl
  · intro prices period h1 h2
    have hws : bollingerWindows prices period = [] := by
      simp only [bollingerWindows]
      rw [show prices.length + 1 - period = 0 by omega]
      rfl
    exact ⟨hws, by simp [calculateBollingerBands, hws],
      by simp [calculateBollingerBands, hws], by simp [calculateBollingerBands, hws]⟩
  · intro highs lows closes period h1 h2
    simp only [calculateStochastic]
    rw [show closes.length + 1 - period = 0 by omega]
    rfl

/-- Witness for the empty-output theorem: RSI on a 3-point series with
period 14. -/
theorem short_input_empty_output_witness :
    1 ≤ 14 ∧ ([1, 2, 3] : List ℚ).length < 14 ∧ calculateRSI [1, 2, 3] 14 = [] :=
  ⟨by decide, by decide, short_input_empty_output.1 [1, 2, 3] 14 (by decide) (by decide)⟩

/-- Counterexample to C3 as stated: MACD on the one-point series `[5]`
(strictly shorter than its fast, slow and signal periods) returns a
non-empty `macdLine` instead of an empty output sequence. -/
theorem macd_short_input_not_empty :
    ([(5 : ℚ)] : List ℚ).length < 26 ∧
    (calculateMACD [(5 : ℚ)] 12 26 9).macdLine ≠ [] := by
  refine ⟨by decide, ?_⟩
  intro hcon
  have hlen := (macd_lengths [(5 : ℚ)] 12 26 9 (by decide)).1
  rw [hcon] at hlen
  simp at hlen

/-- C4: the Stochastic %K computation has no guard for a flat window:
on a 14-bar window whose highs and lows are all equal, the highest high
equals the lowest low, the division by `highestHigh - lowestLow = 0` is
performed anyway, and the produced %K sample is not a finite number
(`none` under the finite-division model of `jsDiv`). -/
theorem stochastic_flat_window_not_finite :
    jsMaxL (List.replicate 14 (5 : ℚ)) = jsMinL (List.replicate 14 (5 : ℚ)) ∧
    calculateStochastic (List.replicate 14 (5 : ℚ)) (List.replicate 14 (5 : ℚ))
      (List.replicate 14 (5 : ℚ)) 14 = [none] := by
  constructor
  · norm_num [jsMaxL, jsMinL, List.replicate]
  · norm_num [calculateStochastic, jsMaxL, jsMinL, jsDiv, List.replicate, List.range_succ]

theorem getD_map_of_lt {γ δ : Type} (f : γ → δ) (l : List γ) (i : ℕ) (hi : i < l.length)
    (d : δ) (dd : γ) : (l.map f).getD i d = f (l.getD i dd) := by
  rw [List.getD_eq_getElem?_getD, List.getElem?_map, List.getElem?_eq_getElem hi,
    Option.map_some', Option.getD_some, List.getD_eq_getElem?_getD,
    List.getElem?_eq_getElem hi, Option.getD_some]

/-- C8: for a closes sequence at least as long as the period
(period ≥ 1, multiplier 2), Bollinger Bands produce exactly
`len - period + 1` samples on each of the three bands, and every sample
satisfies `lower ≤ middle ≤ upper` (the bands are the window mean plus
or minus a non-negative multiple of the square root of the population
variance). -/
theorem bollinger_length_and_order (prices : List ℚ) (period : ℕ) (h1 : 1 ≤ period)
    (h2 : period ≤ prices.length) :
    (calculateBollingerBands prices period 2).sma.length = prices.length - period + 1 ∧
    (calculateBollingerBands prices period 2).upperBand.length =
      prices.length - period + 1 ∧
    (calculateBollingerBands prices period 2).lowerBand.length =
      prices.length - period + 1 ∧
    (∀ i, i < prices.length - period + 1 →
      (calculateBollingerBands prices period 2).lowerBand.getD i 0 ≤
        (calculateBollingerBands prices period 2).sma.getD i 0 ∧
      (calculateBollingerBands prices period 2).sma.getD i 0 ≤
        (calculateBollingerBands prices period 2).upperBand.getD i 0) := by
  have hws : (bollingerWindows prices period).length = prices.length - period + 1 := by
    simp only [bollingerWindows, List.length_map, List.length_range]
    omega
  have hsma : (calculateBollingerBands prices period 2).sma =
      (bollingerWindows prices period).map (fun w => (w.1 : ℝ)) := rfl
  have hup : (calculateBollingerBands prices period 2).upperBand =
      (bollingerWindows prices period).map
        (fun w => (w.1 : ℝ) + Real.sqrt (w.2 : ℝ) * ((2 : ℚ) : ℝ)) := rfl
  have hlo : (calculateBollingerBands prices period 2).lowerBand =
      (bollingerWindows prices period).map
        (fun w => (w.1 : ℝ) - Real.sqrt (w.2 : ℝ) * ((2 : ℚ) : ℝ)) := rfl
  refine ⟨by rw [hsma, List.length_map, hws], by rw [hup, List.length_map, hws],
    by rw [hlo, List.length_map, hws], ?_⟩
  intro i hi
  have hib : i < (bollingerWindows prices period).length := by rw [hws]; exact hi
  have hnn : 0 ≤ Real.sqrt (((bollingerWindows prices period).getD i (0, 0)).2 : ℝ) *
      ((2 : ℚ) : ℝ) := by
    apply mul_nonneg (Real.sqrt_nonneg _)
    norm_num
  constructor
  · rw [hlo, hsma, getD_map_of_lt _ _ i hib _ (0, 0), getD_map_of_lt _ _ i hib _ (0, 0)]
    linarith
  · rw [hup, hsma, getD_map_of_lt _ _ i hib _ (0, 0), getD_map_of_lt _ _ i hib _ (0, 0)]
    linarith

/-- Witness for the Bollinger theorem on a concrete two-point series
with period 2. -/
theorem bollinger_length_and_order_witness :
    1 ≤ 2 ∧ 2 ≤ ([1, 3] : List ℚ).length ∧
    ((calculateBollingerBands [1, 3] 2 2).sma.length = ([1, 3] : List ℚ).length - 2 + 1 ∧
      (calculateBollingerBands [1, 3] 2 2).upperBand.length =
        ([1, 3] : List ℚ).length - 2 + 1 ∧
      (calculateBollingerBands [1, 3] 2 2).lowerBand.length =
        ([1, 3] : List ℚ).length - 2 + 1 ∧
      (∀ i, i < ([1, 3] : List ℚ).length - 2 + 1 →
        (calculateBollingerBands [1, 3] 2 2).lowerBand.getD i 0 ≤
          (calculateBollingerBands [1, 3] 2 2).sma.getD i 0 ∧
        (calculateBollingerBands [1, 3] 2 2).sma.getD i 0 ≤
          (calculateBollingerBands [1, 3] 2 2).upperBand.getD i 0)) :=
  ⟨by decide, by decide, bollinger_length_and_order [1, 3] 2 (by decide) (by decide)⟩

/-- C10: in portfolio alignment, the emitted value for a snapshot is
its `total_value` exactly when that is truthy; a `total_value` of `0`,
`null` or absent falls back to `initialCapital` when that is truthy and
to the constant `10000` otherwise — so an emitted portfolio value is
never `0`. -/
theorem portfolioData_value_semantics (history : List PortfolioMetricPoint)
    (uniq : List PricePoint) (initialCapital : Option ℚ) :
    ∀ pr ∈ history.zip (portfolioData history uniq initialCapital),
      (∀ x : ℚ, pr.1.total_value = some x → x ≠ 0 → pr.2.2 = x) ∧
      ((pr.1.total_value = none ∨ pr.1.total_value = some 0) →
        ∀ c : ℚ, initialCapital = some c → c ≠ 0 → pr.2.2 = c) ∧
      ((pr.1.total_value = none ∨ pr.1.total_value = some 0) →
        (initialCapital = none ∨ initialCapital = some 0) → pr.2.2 = 10000) ∧
      pr.2.2 ≠ 0 := by
  intro pr hpr
  have hzip : history.zip (portfolioData history uniq initialCapital) =
      history.map (fun m => (m,
        ((match closestPricePoint uniq m.metricDateMs with
          | some p => tkey p
          | none => 0),
         jsOr m.total_value (jsOr initialCapital 10000)))) := by
    unfold portfolioData
    have h := List.zip_map' id (fun m : PortfolioMetricPoint =>
      ((match closestPricePoint uniq m.metricDateMs with
        | some p => tkey p
        | none => 0),
       jsOr m.total_value (jsOr initialCapital 10000))) history
    rw [List.map_id] at h
    exact h
  rw [hzip] at hpr
  rcases List.mem_map.mp hpr with ⟨m, _, hme⟩
  rw [← hme]
  simp only []
  have hdne : jsOr initialCapital 10000 ≠ 0 := by
    rcases initialCapital with _ | c
    · simp [jsOr]
    · by_cases hc : c = 0 <;> simp [jsOr, hc]
  refine ⟨?_, ?_, ?_, ?_⟩
  · intro x hx hxne
    rw [hx]
    simp [jsOr, hxne]
  · intro h0 c hc hcne
    have hfall : jsOr m.total_value (jsOr initialCapital 10000) =
        jsOr initialCapital 10000 := by
      rcases h0 with h | h <;> rw [h] <;> simp [jsOr]
    rw [hfall, hc]
    simp [jsOr, hcne]
  · intro h0 hinit
    have hfall : jsOr m.total_value (jsOr initialCapital 10000) =
        jsOr initialCapital 10000 := by
      rcases h0 with h | h <;> rw [h] <;> simp [jsOr]
    rw [hfall]
    rcases hinit with h | h <;> rw [h] <;> simp [jsOr]
  · cases hmt : m.total_value with
    | none => simpa [jsOr] using hdne
    | some x =>
      by_cases hx : x = 0
      · simpa [jsOr, hx] using hdne
      · simp [jsOr, hx]

/-- Witness for the portfolio value semantics at a concrete snapshot
with `total_value = 0` and `initialCapital = 0`: the emitted value is
the constant `10000`. -/
theorem portfolioData_value_semantics_witness :
    ((⟨0, some 0⟩ : PortfolioMetricPoint), ((0 : ℚ), (10000 : ℚ))) ∈
      ([⟨0, some 0⟩] : List PortfolioMetricPoint).zip
        (portfolioData [⟨0, some 0⟩] [⟨0, 1, 1, 1, 1, none⟩] (some 0)) ∧
    ((∀ x : ℚ, (⟨0, some 0⟩ : PortfolioMetricPoint).total_value = some x → x ≠ 0 →
        ((0 : ℚ), (10000 : ℚ)).2 = x) ∧
      (((⟨0, some 0⟩ : PortfolioMetricPoint).total_value = none ∨
          (⟨0, some 0⟩ : PortfolioMetricPoint).total_value = some 0) →
        ∀ c : ℚ, (some (0 : ℚ)) = some c → c ≠ 0 → ((0 : ℚ), (10000 : ℚ)).2 = c) ∧
      (((⟨0, some 0⟩ : PortfolioMetricPoint).total_value = none ∨
          (⟨0, some 0⟩ : PortfolioMetricPoint).total_value = some 0) →
        ((some (0 : ℚ)) = none ∨ (some (0 : ℚ)) = some 0) →
        ((0 : ℚ), (10000 : ℚ)).2 = 10000) ∧
      ((0 : ℚ), (10000 : ℚ)).2 ≠ 0) :=
  ⟨by norm_num [portfolioData, closestPricePoint, jsOr, tkey],
    portfolioData_value_semantics [⟨0, some 0⟩] [⟨0, 1, 1, 1, 1, none⟩] (some 0)
      ((⟨0, some 0⟩ : PortfolioMetricPoint), ((0 : ℚ), (10000 : ℚ)))
      (by norm_num [portfolioData, closestPricePoint, jsOr, tkey])⟩
